import Mathlib

/-!
Verification of the rust-canteen HTTP framework core against its
natural-language specification.

The development shallowly embeds the routing and connection code of the
repository:

* `src/rust-canteen/src/route.rs` — route compilation (`Route::new`),
  matching (`Route::is_match`), parameter extraction (`Route::parse`) and
  the static-file path construction (`Route::static_file`);
* `src/src/lib.rs` — the `Canteen` route table (`add_route`,
  `handle_request` resolution with its cache) and the `Client::send`
  write loop.

Rust `Regex` values are modelled by an executable regular-expression
engine: `Route::new` assembles exactly the pattern string the Rust code
assembles, a parser (`Regex.parseChars`) models the regex crate
compiling that string (including its rejection of duplicate capture
group names), and a fuel-bounded backtracking matcher
(`Regex.capturesOn`) models leftmost-first matching with named
captures.  `HashMap`/`HashSet` containers are modelled as association
lists in insertion order, fixing the unspecified iteration order of the
Rust containers.  A Rust panic is modelled as `none`.
-/

set_option maxRecDepth 4096

/-- HTTP methods, from `request.rs` (the variants used by the library). -/
inductive Method where
  | Get
  | Post
  | Put
  | Delete
deriving DecidableEq

/-- Parameter types, from `route.rs` `enum ParamType`. -/
inductive ParamType where
  | Integer
  | String
  | Float
  | Path
deriving DecidableEq

/-- Named-capture environment: name to captured text, later entries win. -/
def Caps := List (String × String)

/-- Lookup of a capture by group name (first entry wins; entries are
prepended, so the most recent write is found). -/
def capsGet : List (String × String) → String → Option String
  | [], _ => none
  | (n, v) :: t, q => if q = n then some v else capsGet t q

/-- Character-class item of the regex model. -/
inductive CItem where
  | ch (c : Char)
  | range (a b : Char)
  | perlD (neg : Bool)
  | perlW (neg : Bool)
  | perlS (neg : Bool)
deriving DecidableEq

/-- Regular-expression abstract syntax, the model of a compiled Rust
`Regex`. -/
inductive Regex where
  | eps
  | lit (c : Char)
  | any
  | cls (neg : Bool) (items : List CItem)
  | bol
  | eol
  | cat (r s : Regex)
  | alt (r s : Regex)
  | star (r : Regex)
  | plus (r : Regex)
  | opt (r : Regex)
  | grp (name : Option String) (r : Regex)
deriving DecidableEq

/-- Structural size of a regex, used to compute a matching fuel bound. -/
def Regex.size : Regex → Nat
  | .eps => 1
  | .lit _ => 1
  | .any => 1
  | .cls _ _ => 1
  | .bol => 1
  | .eol => 1
  | .cat r s => r.size + s.size + 1
  | .alt r s => r.size + s.size + 1
  | .star r => r.size + 1
  | .plus r => r.size + 1
  | .opt r => r.size + 1
  | .grp _ r => r.size + 1

/-! ## The regex parser

A character-at-a-time state machine modelling the regex crate compiling
a pattern string.  It supports the constructs reachable from patterns
the route compiler assembles (literals, `.`, anchors, escapes,
character classes with ranges, `(?:...)`, `(?P<name>...)`, plain
groups, `|`, `*`, `+`, `?`) and rejects what the regex crate rejects on
those patterns: unbalanced parentheses, unclosed classes, dangling
repetition operators, unknown escapes, and duplicate capture group
names. -/

/-- Kind of an open group. -/
inductive GKind where
  | named (n : String)
  | plain
  | noncap
deriving DecidableEq

/-- A partially parsed alternation frame: finished alternatives in
order, and the current sequence of atoms in reverse order. -/
structure PFrame where
  alts : List Regex
  seq : List Regex
deriving DecidableEq

def PFrame.empty : PFrame := ⟨[], []⟩

/-- Parser mode: what the next character is interpreted as. -/
inductive PMode where
  | normal
  | esc
  | clsStart (neg : Bool)
  | clsBody (neg : Bool) (items : List CItem) (pend : Option Char) (dash : Bool)
  | clsEsc (neg : Bool) (items : List CItem) (pend : Option Char) (dash : Bool)
  | grpOpen0
  | grpOpen1
  | grpOpen2
  | grpName (acc : List Char)
deriving DecidableEq

/-- Full parser state. -/
structure PState where
  stack : List (GKind × PFrame)
  cur : PFrame
  names : List String
  mode : PMode
deriving DecidableEq

def PState.init : PState := ⟨[], PFrame.empty, [], PMode.normal⟩

/-- Fold a reversed atom sequence into a concatenation. -/
def mkCat : List Regex → Regex
  | [] => Regex.eps
  | [r] => r
  | r :: rest => Regex.cat r (mkCat rest)

/-- Fold an alternative list into an alternation. -/
def mkAlt : List Regex → Regex
  | [] => Regex.eps
  | [r] => r
  | r :: rest => Regex.alt r (mkAlt rest)

/-- Finish a frame into a regex. -/
def finFrame (f : PFrame) : Regex :=
  mkAlt (f.alts ++ [mkCat f.seq.reverse])

def PFrame.push (f : PFrame) (r : Regex) : PFrame :=
  ⟨f.alts, r :: f.seq⟩

/-- Is an atom already a repetition (the regex crate rejects `a**`)? -/
def isRep : Regex → Bool
  | .star _ => true
  | .plus _ => true
  | .opt _ => true
  | _ => false

/-- Apply a postfix repetition operator to the last atom. -/
def applyPost (f : Regex → Regex) (fr : PFrame) : Option PFrame :=
  match fr.seq with
  | [] => none
  | a :: rest => if isRep a then none else some ⟨fr.alts, f a :: rest⟩

/-- Characters allowed in a capture group name. -/
def nameChar (c : Char) : Bool := c.isAlphanum || c = '_'

/-- Handle one character in normal mode. -/
def stepNormal (stk : List (GKind × PFrame)) (cur : PFrame)
    (names : List String) (c : Char) : Option PState :=
  if c = '(' then some ⟨stk, cur, names, PMode.grpOpen0⟩
  else if c = ')' then
    match stk with
    | [] => none
    | (gk, fr) :: rest =>
      let r := finFrame cur
      let atom := match gk with
        | GKind.named n => Regex.grp (some n) r
        | GKind.plain => Regex.grp none r
        | GKind.noncap => r
      some ⟨rest, fr.push atom, names, PMode.normal⟩
  else if c = '|' then
    some ⟨stk, ⟨cur.alts ++ [mkCat cur.seq.reverse], []⟩, names, PMode.normal⟩
  else if c = '*' then
    (applyPost Regex.star cur).map (fun f => ⟨stk, f, names, PMode.normal⟩)
  else if c = '+' then
    (applyPost Regex.plus cur).map (fun f => ⟨stk, f, names, PMode.normal⟩)
  else if c = '?' then
    (applyPost Regex.opt cur).map (fun f => ⟨stk, f, names, PMode.normal⟩)
  else if c = '[' then some ⟨stk, cur, names, PMode.clsStart false⟩
  else if c = '\\' then some ⟨stk, cur, names, PMode.esc⟩
  else if c = '^' then some ⟨stk, cur.push Regex.bol, names, PMode.normal⟩
  else if c = '$' then some ⟨stk, cur.push Regex.eol, names, PMode.normal⟩
  else if c = '.' then some ⟨stk, cur.push Regex.any, names, PMode.normal⟩
  else some ⟨stk, cur.push (Regex.lit c), names, PMode.normal⟩

/-- Handle an escaped character (after a backslash) in normal mode. -/
def escAtom (c : Char) : Option Regex :=
  if c = 'd' then some (Regex.cls false [CItem.perlD false])
  else if c = 'D' then some (Regex.cls true [CItem.perlD false])
  else if c = 'w' then some (Regex.cls false [CItem.perlW false])
  else if c = 'W' then some (Regex.cls true [CItem.perlW false])
  else if c = 's' then some (Regex.cls false [CItem.perlS false])
  else if c = 'S' then some (Regex.cls true [CItem.perlS false])
  else if c = 'n' then some (Regex.lit '\n')
  else if c = 't' then some (Regex.lit '\t')
  else if c = 'r' then some (Regex.lit '\r')
  else if c.isAlphanum then none
  else some (Regex.lit c)

/-- Flush a pending class character / dash into the item list. -/
def flushPend (items : List CItem) (pend : Option Char) (dash : Bool) :
    List CItem :=
  match pend with
  | none => items
  | some p => if dash then items ++ [CItem.ch p, CItem.ch '-'] else items ++ [CItem.ch p]

/-- Add a plain character to a class body, resolving a pending range. -/
def clsAddChar (stk : List (GKind × PFrame)) (cur : PFrame)
    (names : List String) (neg : Bool) (items : List CItem)
    (pend : Option Char) (dash : Bool) (c : Char) : Option PState :=
  if dash then
    match pend with
    | some p =>
        if p ≤ c then
          some ⟨stk, cur, names, PMode.clsBody neg (items ++ [CItem.range p c]) none false⟩
        else none
    | none => none
  else
    match pend with
    | some p =>
        some ⟨stk, cur, names, PMode.clsBody neg (items ++ [CItem.ch p]) (some c) false⟩
    | none => some ⟨stk, cur, names, PMode.clsBody neg items (some c) false⟩

/-- One parser step: consume one character of the pattern. -/
def pstepChar (st : PState) (c : Char) : Option PState :=
  match st.mode with
  | PMode.normal => stepNormal st.stack st.cur st.names c
  | PMode.esc =>
    (escAtom c).map (fun a => ⟨st.stack, st.cur.push a, st.names, PMode.normal⟩)
  | PMode.clsStart neg =>
    if c = '^' && !neg then some ⟨st.stack, st.cur, st.names, PMode.clsStart true⟩
    else if c = ']' then none
    else if c = '\\' then some ⟨st.stack, st.cur, st.names, PMode.clsEsc neg [] none false⟩
    else some ⟨st.stack, st.cur, st.names, PMode.clsBody neg [] (some c) false⟩
  | PMode.clsBody neg items pend dash =>
    if c = ']' then
      let items2 := flushPend items pend dash
      if items2 = [] then none
      else some ⟨st.stack, st.cur.push (Regex.cls neg items2), st.names, PMode.normal⟩
    else if c = '\\' then some ⟨st.stack, st.cur, st.names, PMode.clsEsc neg items pend dash⟩
    else if c = '-' && pend.isSome && !dash then
      some ⟨st.stack, st.cur, st.names, PMode.clsBody neg items pend true⟩
    else clsAddChar st.stack st.cur st.names neg items pend dash c
  | PMode.clsEsc neg items pend dash =>
    if c = 'd' || c = 'D' || c = 'w' || c = 'W' || c = 's' || c = 'S' then
      if dash then none
      else
        let items2 := flushPend items pend false
        let it := if c = 'd' then CItem.perlD false
          else if c = 'D' then CItem.perlD true
          else if c = 'w' then CItem.perlW false
          else if c = 'W' then CItem.perlW true
          else if c = 's' then CItem.perlS false
          else CItem.perlS true
        some ⟨st.stack, st.cur, st.names, PMode.clsBody neg (items2 ++ [it]) none false⟩
    else if c = 'n' then clsAddChar st.stack st.cur st.names neg items pend dash '\n'
    else if c = 't' then clsAddChar st.stack st.cur st.names neg items pend dash '\t'
    else if c = 'r' then clsAddChar st.stack st.cur st.names neg items pend dash '\r'
    else if c.isAlphanum then none
    else clsAddChar st.stack st.cur st.names neg items pend dash c
  | PMode.grpOpen0 =>
    if c = '?' then some ⟨st.stack, st.cur, st.names, PMode.grpOpen1⟩
    else stepNormal ((GKind.plain, st.cur) :: st.stack) PFrame.empty st.names c
  | PMode.grpOpen1 =>
    if c = ':' then
      some ⟨(GKind.noncap, st.cur) :: st.stack, PFrame.empty, st.names, PMode.normal⟩
    else if c = 'P' then some ⟨st.stack, st.cur, st.names, PMode.grpOpen2⟩
    else none
  | PMode.grpOpen2 =>
    if c = '<' then some ⟨st.stack, st.cur, st.names, PMode.grpName []⟩
    else none
  | PMode.grpName acc =>
    if c = '>' then
      if acc = [] then none
      else
        let n := String.mk acc.reverse
        if n ∈ st.names then none
        else some ⟨(GKind.named n, st.cur) :: st.stack, PFrame.empty,
          n :: st.names, PMode.normal⟩
    else if nameChar c then some ⟨st.stack, st.cur, st.names, PMode.grpName (c :: acc)⟩
    else none

/-- Lifted parser step on an optional state (a failure is sticky). -/
def pstep (o : Option PState) (c : Char) : Option PState :=
  o.bind (fun st => pstepChar st c)

/-- Run the parser over a character list. -/
def runP (cs : List Char) : Option PState :=
  cs.foldl pstep (some PState.init)

/-- End-of-pattern check: all groups and classes must be closed. -/
def finalizeP (st : PState) : Option Regex :=
  match st.mode, st.stack with
  | PMode.normal, [] => some (finFrame st.cur)
  | _, _ => none

/-- Model of `Regex::new` on a pattern given as a character list:
`none` models the compilation error the Rust code `unwrap`s. -/
def Regex.parseChars (cs : List Char) : Option Regex :=
  (runP cs).bind finalizeP

/-! ## The regex matcher

A fuel-bounded backtracking matcher with leftmost-first semantics, as
implemented by the regex crate: alternatives are tried left to right,
repetitions are greedy.  Results are returned in preference order; the
head of the list is the match the crate reports.  The fuel bounds the
recursion depth, which for these regexes is at most
`size * (length + 1)` plus a constant, so the generous default bound
`(size + 2) * (length + 2)` never runs out on the inputs considered. -/

/-- Does one class item match a character? -/
def itemMatch (it : CItem) (c : Char) : Bool :=
  match it with
  | CItem.ch d => c = d
  | CItem.range a b => a ≤ c && c ≤ b
  | CItem.perlD neg => xor c.isDigit neg
  | CItem.perlW neg => xor (c.isAlphanum || c = '_') neg
  | CItem.perlS neg => xor c.isWhitespace neg

/-- Does a character class match a character? -/
def clsMatch (neg : Bool) (items : List CItem) (c : Char) : Bool :=
  if neg then !(items.any (fun it => itemMatch it c))
  else items.any (fun it => itemMatch it c)

/-- Merge capture environments: entries of the later match win. -/
def capsMerge (early late : List (String × String)) : List (String × String) :=
  late ++ early

/-- All ways a regex can match a prefix of the suffix `s` of an input
of total length `total`, in backtracking preference order.  Each result
is the remaining suffix and the captures produced. -/
def mmatch : Nat → Regex → Nat → List Char → List (List Char × List (String × String))
  | 0, _, _, _ => []
  | fuel + 1, r, total, s =>
    match r with
    | Regex.eps => [(s, [])]
    | Regex.lit c =>
      match s with
      | [] => []
      | d :: t => if d = c then [(t, [])] else []
    | Regex.any =>
      match s with
      | [] => []
      | d :: t => if d = '\n' then [] else [(t, [])]
    | Regex.cls neg items =>
      match s with
      | [] => []
      | d :: t => if clsMatch neg items d then [(t, [])] else []
    | Regex.bol => if s.length = total then [(s, [])] else []
    | Regex.eol => if s = [] then [(s, [])] else []
    | Regex.cat r1 r2 =>
      (mmatch fuel r1 total s).flatMap (fun p =>
        (mmatch fuel r2 total p.1).map (fun q => (q.1, capsMerge p.2 q.2)))
    | Regex.alt r1 r2 => mmatch fuel r1 total s ++ mmatch fuel r2 total s
    | Regex.star r1 =>
      ((mmatch fuel r1 total s).filter (fun p => p.1.length < s.length)).flatMap
        (fun p => (mmatch fuel (Regex.star r1) total p.1).map
          (fun q => (q.1, capsMerge p.2 q.2))) ++ [(s, [])]
    | Regex.plus r1 =>
      (mmatch fuel r1 total s).flatMap (fun p =>
        if p.1.length < s.length then
          (mmatch fuel (Regex.star r1) total p.1).map
            (fun q => (q.1, capsMerge p.2 q.2))
        else [p])
    | Regex.opt r1 => mmatch fuel r1 total s ++ [(s, [])]
    | Regex.grp name r1 =>
      (mmatch fuel r1 total s).map (fun p =>
        match name with
        | some n => (p.1, (n, String.mk (s.take (s.length - p.1.length))) :: p.2)
        | none => p)

/-- Fuel bound used for matching. -/
def regexFuel (r : Regex) (len : Nat) : Nat := (r.size + 2) * (len + 2)

/-- Try to match at the current start position, else advance one
character: leftmost match, as the regex crate reports. -/
def tryAt (r : Regex) (total : Nat) : List Char → Option (List (String × String))
  | [] =>
    match mmatch (regexFuel r total) r total [] with
    | p :: _ => some p.2
    | [] => none
  | c :: t =>
    match mmatch (regexFuel r total) r total (c :: t) with
    | p :: _ => some p.2
    | [] => tryAt r total t

/-- Model of `Regex::captures` on a character list: the captures of the
leftmost-first match, or `none` when the regex does not match. -/
def Regex.capturesOn (r : Regex) (cs : List Char) : Option (List (String × String)) :=
  tryAt r cs.length cs

/-- Model of `Regex::is_match`. -/
def Regex.isMatchOn (r : Regex) (cs : List Char) : Bool :=
  (r.capturesOn cs).isSome

/-! ## Request, Response and handlers

`request.rs`, `response.rs` and `utils.rs` are not under `src/`; the
fields and handlers the routing code touches are modelled from the
spec. -/

/-- Extracted parameter mapping: name to raw captured substring. -/
def Params := List (String × String)

/-- Modelled from the spec: `request.rs` is absent from src.  Per spec
section 3 a Request carries the method, the raw path and the parameter
mapping populated by the router after matching (initially absent);
headers and body are irrelevant to routing and omitted. -/
structure Request where
  method : Method
  path : String
  params : Option Params

/-- Modelled from the spec: `response.rs` is absent from src.  Per spec
section 3 a Response is a builder with status code, content type and
body. -/
structure Response where
  code : Nat
  ctype : String
  body : String

/-- Modelled from the spec: the built-in 404 response produces a
minimal plaintext body echoing the offending path (spec section 6). -/
def Response.err_404 (path : String) : Response :=
  ⟨404, "text/plain", "not found: " ++ path⟩

/-- A handler function, `fn(&Request) -> Response`. -/
def Handler := Request → Response

/-- Modelled from the spec: `utils.rs` is absent from src; `utils::err_404`
is the built-in 404 handler installed by `Canteen::new`. -/
def utils_err_404 : Handler := fun req => Response.err_404 req.path

/-! ## Route compilation, `route.rs` lines 31-92 -/

/-- Rust `str::split(sep)` on a character list: splits at every
separator, keeping empty pieces. -/
def splitCharAux (sep : Char) : List Char → List Char → List (List Char)
  | [], acc => [acc.reverse]
  | c :: t, acc =>
    if c = sep then acc.reverse :: splitCharAux sep t []
    else splitCharAux sep t (c :: acc)

def splitChar (sep : Char) (cs : List Char) : List (List Char) :=
  splitCharAux sep cs []

/-- `path.split('/').filter(|&s| s != "")`, line 33 of `route.rs`. -/
def routeParts (path : String) : List (List Char) :=
  (splitChar '/' path.data).filter (fun s => s ≠ [])

/-- A valid parameter name per the placeholder regex
`[\w_][a-zA-Z0-9_]*` (word characters restricted to ASCII). -/
def validName (cs : List Char) : Bool :=
  match cs with
  | [] => false
  | c :: rest => nameChar c && rest.all (fun d => d.isAlphanum || d = '_')

/-- The leftmost-first alternation `(int|str|float|path):` of the
placeholder regex: try to strip one type tag and its colon. -/
def typeTag (cs : List Char) : Option (ParamType × List Char) :=
  match cs with
  | 'i' :: 'n' :: 't' :: ':' :: rest => some (ParamType.Integer, rest)
  | 's' :: 't' :: 'r' :: ':' :: rest => some (ParamType.String, rest)
  | 'f' :: 'l' :: 'o' :: 'a' :: 't' :: ':' :: rest => some (ParamType.Float, rest)
  | 'p' :: 'a' :: 't' :: 'h' :: ':' :: rest => some (ParamType.Path, rest)
  | _ => none

/-- Recognition of one path segment against the placeholder regex
`^<(?:(int|str|float|path):)?([\w_][a-zA-Z0-9_]*)>$` (line 32 of
`route.rs`), with its backtracking: if the optional type group matches
but the remainder is not a valid name, the whole inner text is retried
as an untyped name.  Returns the parameter type and name, or `none`
when the segment is not a placeholder (and is therefore literal
text). -/
def phInner (inner : List Char) : Option (ParamType × List Char) :=
  match typeTag inner with
  | some (t, nm) =>
    if validName nm then some (t, nm)
    else if validName inner then some (ParamType.String, inner) else none
  | none => if validName inner then some (ParamType.String, inner) else none

def parsePlaceholder (part : List Char) : Option (ParamType × List Char) :=
  match part with
  | [] => none
  | c :: rest =>
    if c = '<' ∧ rest ≠ [] ∧ rest.getLast? = some '>' then phInner rest.dropLast
    else none

/-- The capture sub-pattern for each parameter type, lines 61-66 of
`route.rs`. -/
def mstrOf : ParamType → List Char
  | ParamType.String => "(?:[^/])+".data
  | ParamType.Integer => "-*[0-9]+".data
  | ParamType.Float => "-*[0-9]*[.]?[0-9]+".data
  | ParamType.Path => ".+".data

/-- The pattern chunk contributed by one path segment, lines 42-81 of
`route.rs`: placeholders become `/(?P<name>sub)`, other segments are
pasted literally after a slash. -/
def partChunk (part : List Char) : List Char :=
  match parsePlaceholder part with
  | some (t, nm) => "/(?P<".data ++ nm ++ '>' :: mstrOf t ++ [')']
  | none => '/' :: part

/-- The assembled matcher pattern: `^` plus all chunks plus `/?$`
(lines 34 and 84 of `route.rs`). -/
def buildPattern (path : String) : List Char :=
  '^' :: (routeParts path).flatMap partChunk ++ "/?$".data

/-- Insert into the parameter map, overwriting an existing name
(`HashMap::insert`, line 73 of `route.rs`). -/
def paramsInsert (ps : List (String × ParamType)) (nm : String) (t : ParamType) :
    List (String × ParamType) :=
  if ps.any (fun p => p.1 = nm) then
    ps.map (fun p => if p.1 = nm then (nm, t) else p)
  else ps ++ [(nm, t)]

/-- The declared parameter map accumulated over the segments. -/
def routeParams (path : String) : List (String × ParamType) :=
  (routeParts path).foldl
    (fun ps part =>
      match parsePlaceholder part with
      | some (t, nm) => paramsInsert ps (String.mk nm) t
      | none => ps)
    []

/-- The placeholder names of a template, in segment order (used to
state when names collide). -/
def segNames (path : String) : List String :=
  (routeParts path).filterMap (fun part =>
    (parsePlaceholder part).map (fun p => String.mk p.2))

/-- A compiled route, `struct Route` of `route.rs`: compiled matcher,
method set, parameter schema and handler. -/
structure Route where
  matcher : Regex
  methods : List Method
  params : List (String × ParamType)
  handler : Handler

/-- `HashSet` accumulation of the method list (lines 38-40), modelled
as first-occurrence deduplication. -/
def dedupMethods : List Method → List Method
  | [] => []
  | m :: rest =>
    let r := dedupMethods rest
    if m ∈ r then r else m :: r

/-- Model of `Route::new` (lines 31-92 of `route.rs`): assemble the
pattern string and compile it; `none` models the panic of
`Regex::new(&matcher).unwrap()` on an invalid pattern. -/
def Route.new (path : String) (mlist : List Method) (handler : Handler) :
    Option Route :=
  match Regex.parseChars (buildPattern path) with
  | some re => some ⟨re, dedupMethods mlist, routeParams path, handler⟩
  | none => none

/-- Model of `Route::is_match` (lines 94-96):
`self.matcher.is_match(&req.path) && self.methods.contains(&req.method)`. -/
def Route.is_match (r : Route) (req : Request) : Bool :=
  r.matcher.isMatchOn req.path.data && r.methods.contains req.method

/-- Model of `Route::parse` (lines 98-112): `None` when the matcher
does not match, else a map from each declared parameter name to the
text captured by the group of that name.  The `caps.name(..).unwrap()`
of the source is total on routes built by `Route::new`, whose declared
groups all participate in any match; a missing group is modelled by the
empty string. -/
def Route.parse (r : Route) (path : String) : Option Params :=
  match r.matcher.capturesOn path.data with
  | some caps => some (r.params.map (fun p => (p.1, (capsGet caps p.1).getD "")))
  | none => none

/-! ## Static file serving, `route.rs` lines 122-160 -/

/-- Modelled from the spec: `Route::replace_escape` is referenced at
line 126 of `route.rs` but its definition is not under `src/`; it is
URL percent-decoding of the request path before the path is split into
segments.  The theorems about the static-file path hold for every
decoded string, so nothing depends on this choice. -/
def hexVal (c : Char) : Option Nat :=
  if '0' ≤ c ∧ c ≤ '9' then some (c.toNat - 48)
  else if 'a' ≤ c ∧ c ≤ 'f' then some (c.toNat - 87)
  else if 'A' ≤ c ∧ c ≤ 'F' then some (c.toNat - 55)
  else none

def replace_escape : List Char → List Char
  | '%' :: h1 :: h2 :: rest =>
    match hexVal h1, hexVal h2 with
    | some a, some b => Char.ofNat (16 * a + b) :: replace_escape rest
    | _, _ => '%' :: replace_escape (h1 :: h2 :: rest)
  | c :: rest => c :: replace_escape rest
  | [] => []

/-- Is a path segment rejected by the traversal guard (line 131 of
`route.rs`)? -/
def badChunk (c : List Char) : Bool :=
  c = [] || c = ['.'] || c = ['.', '.']

/-- One `fpath.push(&chunk)` step of the loop at lines 130-137:
segments that are empty, `.` or `..` are skipped, every other segment
is appended as a path component. -/
def pushChunk (fp : List (List Char)) (c : List Char) : List (List Char) :=
  if badChunk c then fp else fp ++ [c]

/-- The file path `Route::static_file` constructs before `File::open`:
the working directory components followed by the surviving segments of
the cleaned request path. -/
def static_file_fpath (cwd : List (List Char)) (path : String) : List (List Char) :=
  (splitChar '/' (replace_escape path.data)).foldl pushChunk cwd

/-! ## The Canteen route table, `lib.rs` lines 200-396 -/

/-- Modelled from the spec: `RouteDef` is referenced throughout
`lib.rs` but defined in a route module version not under `src/`.  Per
spec section 3 it is the pair of path template string and HTTP method,
compared exactly. -/
structure RouteDef where
  pathdef : String
  method : Method
deriving DecidableEq

/-- Association list lookup, modelling `HashMap` lookup. -/
def alookup {κ α : Type} [DecidableEq κ] : List (κ × α) → κ → Option α
  | [], _ => none
  | (k, v) :: t, q => if q = k then some v else alookup t q

/-- The `Canteen` state relevant to routing: the route registry, the
resolution cache and the default handler.  The socket, token, slab and
thread-pool fields of the Rust struct are I/O plumbing with no effect
on resolution and are not modelled. -/
structure Canteen where
  routes : List (RouteDef × Route)
  rcache : List (RouteDef × RouteDef)
  dfl : Handler

/-- Model of `Canteen::new` (lines 266-276): empty registry, empty
cache, and `utils::err_404` as the default handler. -/
def Canteen.new : Canteen := ⟨[], [], utils_err_404⟩

/-- Model of `Canteen::set_default` (lines 344-348). -/
def Canteen.set_default (c : Canteen) (h : Handler) : Canteen :=
  { c with dfl := h }

/-- The per-method body of `Canteen::add_route` (lines 317-328): panic
(`none`) when the `RouteDef` is already registered, else insert the
route compiled for that single method. -/
def addRouteGo (path : String) (h : Handler) : Canteen → List Method → Option Canteen
  | c, [] => some c
  | c, m :: rest =>
    if (alookup c.routes ⟨path, m⟩).isSome then none
    else
      match Route.new path [m] h with
      | some r => addRouteGo path h { c with routes := c.routes ++ [(⟨path, m⟩, r)] } rest
      | none => none

/-- Model of `Canteen::add_route` (lines 308-331): deduplicate the
method list, then register the route once per method; `none` models
the duplicate-registration panic (and the `Route::new` panic). -/
def Canteen.add_route (c : Canteen) (path : String) (mlist : List Method)
    (h : Handler) : Option Canteen :=
  addRouteGo path h c (dedupMethods mlist)

/-- The request the router matches against: method and path, parameter
map not yet populated. -/
def mkReq (path : String) (m : Method) : Request := ⟨m, path, none⟩

/-- The linear scan of `handle_request` (lines 383-390): the first
registered route that matches the request. -/
def scanFirst (routes : List (RouteDef × Route)) (path : String) (m : Method) :
    Option (RouteDef × Route) :=
  routes.find? (fun pr => pr.2.is_match (mkReq path m))

/-- Model of the route-resolution core of `Canteen::handle_request`
(lines 369-396), taking the parsed request path and method.  Returns
the updated state, the selected handler and the extracted parameters;
`none` models the panic of `self.routes[&self.rcache[&resolved]]` when
a cached `RouteDef` is absent from the registry. -/
def handleResolve (c : Canteen) (path : String) (m : Method) :
    Option (Canteen × Handler × Option Params) :=
  let resolved : RouteDef := ⟨path, m⟩
  match alookup c.rcache resolved with
  | some rd =>
    match alookup c.routes rd with
    | some route => some (c, route.handler, route.parse path)
    | none => none
  | none =>
    match scanFirst c.routes path m with
    | some (rd, route) =>
      some ({ c with rcache := c.rcache ++ [(resolved, rd)] },
        route.handler, route.parse path)
    | none => some (c, c.dfl, none)

/-- The from-scratch linear scan the spec compares cached resolution
against ("the same Route a from-scratch scan would find"): no cache
consulted, no state changed. -/
def scanResolve (c : Canteen) (path : String) (m : Method) :
    Handler × Option Params :=
  match scanFirst c.routes path m with
  | some (_, route) => (route.handler, route.parse path)
  | none => (c.dfl, none)

/-- States of the route table reachable from `Canteen::new` by
registrations, request handling and default-handler changes; panics
(`none`) end a run. -/
inductive Reach : Canteen → Prop
  | init : Reach Canteen.new
  | add {c c' : Canteen} (path : String) (mlist : List Method) (h : Handler) :
      Reach c → Canteen.add_route c path mlist h = some c' → Reach c'
  | req {c c' : Canteen} {hd : Handler} {pa : Option Params}
      (path : String) (m : Method) :
      Reach c → handleResolve c path m = some (c', hd, pa) → Reach c'
  | setdef {c : Canteen} (h : Handler) :
      Reach c → Reach (Canteen.set_default c h)

/-- Reachability without any `set_default` call (claim C10). -/
inductive ReachND : Canteen → Prop
  | init : ReachND Canteen.new
  | add {c c' : Canteen} (path : String) (mlist : List Method) (h : Handler) :
      ReachND c → Canteen.add_route c path mlist h = some c' → ReachND c'
  | req {c c' : Canteen} {hd : Handler} {pa : Option Params}
      (path : String) (m : Method) :
      ReachND c → handleResolve c path m = some (c', hd, pa) → ReachND c'

/-! ## The client write loop, `lib.rs` lines 162-186 and 238-244 -/

/-- One outcome of `self.sock.write(..)` on the non-blocking socket:
either `Ok(n)` with `n` bytes transferred, or an error — the source
treats every error, `WouldBlock` included, identically
(`Err(_) => return Ok(true)`). -/
inductive WriteStep where
  | wrote (n : Nat)
  | wouldBlock
deriving DecidableEq

/-- Result of one `Client::send` call: the boolean the function
returns (`true` means the caller may close the connection), the bytes
left in `o_buf`, and the bytes actually transferred to the socket. -/
structure SendOut where
  closeConn : Bool
  obuf : List Nat
  sent : List Nat
deriving DecidableEq

/-- The `while !self.o_buf.is_empty()` loop of `Client::send` (lines
167-183), consuming one write outcome per iteration; `none` means the
injected outcome trace ran out before the loop finished. -/
def sendGo : List Nat → List WriteStep → Option SendOut
  | obuf, steps =>
    if obuf.isEmpty then some ⟨true, obuf, []⟩
    else
      match steps with
      | [] => none
      | WriteStep.wrote sz :: rest =>
        if sz = obuf.length then some ⟨true, [], obuf⟩
        else
          (sendGo (obuf.drop sz) rest).map
            (fun out => ⟨out.closeConn, out.obuf, obuf.take sz ++ out.sent⟩)
      | WriteStep.wouldBlock :: _ => some ⟨true, obuf, []⟩

/-- Model of `Client::send` (lines 162-186): the early `Ok(false)`
return on an empty buffer, then the write loop. -/
def clientSend (obuf : List Nat) (steps : List WriteStep) : Option SendOut :=
  if obuf.isEmpty then some ⟨false, obuf, []⟩
  else sendGo obuf steps

/-- The writable-event arm of `Canteen::ready` (lines 238-244):
`Ok(true)` resets (closes) the connection, `Ok(false)` re-registers it
and keeps the remaining buffer. -/
def writableEvent (obuf : List Nat) (steps : List WriteStep) :
    Option (Bool × List Nat × List Nat) :=
  (clientSend obuf steps).map (fun out => (out.closeConn, out.obuf, out.sent))


/-! ## Helper lemmas about association lists -/

theorem alookup_append_of_some {κ α : Type} [DecidableEq κ]
    {l1 : List (κ × α)} (l2 : List (κ × α)) {k : κ} {v : α}
    (h : alookup l1 k = some v) : alookup (l1 ++ l2) k = some v := by
  induction l1 with
  | nil => simp [alookup] at h
  | cons p t ih =>
    simp only [alookup, List.cons_append] at h ⊢
    by_cases e : k = p.1
    · simpa [e] using h
    · simp only [e, if_false] at h ⊢
      exact ih h

theorem alookup_append_of_none {κ α : Type} [DecidableEq κ]
    {l1 : List (κ × α)} (l2 : List (κ × α)) {k : κ}
    (h : alookup l1 k = none) : alookup (l1 ++ l2) k = alookup l2 k := by
  induction l1 with
  | nil => simp
  | cons p t ih =>
    simp only [alookup, List.cons_append] at h ⊢
    by_cases e : k = p.1
    · simp [e] at h
    · simp only [e, if_false] at h ⊢
      exact ih h

theorem not_mem_keys_of_alookup_eq_none {κ α : Type} [DecidableEq κ]
    {l : List (κ × α)} {k : κ} (h : alookup l k = none) : k ∉ l.map Prod.fst := by
  induction l with
  | nil => simp
  | cons p t ih =>
    simp only [alookup] at h
    by_cases e : k = p.1
    · simp [e] at h
    · simp only [e, if_false] at h
      simpa [List.mem_cons, e] using ih h

theorem alookup_of_mem_nodup {κ α : Type} [DecidableEq κ]
    {l : List (κ × α)} {k : κ} {v : α}
    (hn : (l.map Prod.fst).Nodup) (hm : (k, v) ∈ l) : alookup l k = some v := by
  induction l with
  | nil => simp at hm
  | cons p t ih =>
    simp only [List.map_cons, List.nodup_cons] at hn
    rcases List.mem_cons.mp hm with h | h
    · rw [← h]
      simp [alookup]
    · have hk : k ≠ p.1 := by
        rintro rfl
        exact hn.1 (List.mem_map.mpr ⟨(p.1, v), h, rfl⟩)
      simp only [alookup, hk, if_false]
      exact ih hn.2 h

theorem scanFirst_append_of_some {routes : List (RouteDef × Route)}
    (more : List (RouteDef × Route)) {p : String} {m : Method}
    {x : RouteDef × Route} (h : scanFirst routes p m = some x) :
    scanFirst (routes ++ more) p m = some x := by
  unfold scanFirst at h ⊢
  rw [List.find?_append, h]
  rfl

/-! ## The route-table invariant

Every cache entry was produced by a successful linear scan, and the
registry only grows with fresh keys, so every cached `RouteDef` still
designates the first matching route for its path and method. -/

/-- Registry keys are pairwise distinct (`add_route` panics before
inserting a duplicate). -/
def RoutesInv (c : Canteen) : Prop := (c.routes.map Prod.fst).Nodup

/-- Every cache entry designates the route the linear scan finds for
that literal path and method, and that route is registered. -/
def CacheInv (c : Canteen) : Prop :=
  ∀ k rd, alookup c.rcache k = some rd →
    ∃ route, scanFirst c.routes k.pathdef k.method = some (rd, route) ∧
      alookup c.routes rd = some route

def CanteenInv (c : Canteen) : Prop := RoutesInv c ∧ CacheInv c

theorem addRouteGo_spec (path : String) (h : Handler) :
    ∀ (ms : List Method) (c c' : Canteen),
      addRouteGo path h c ms = some c' → CanteenInv c →
      CanteenInv c' ∧ c'.rcache = c.rcache ∧ c'.dfl = c.dfl ∧
        ∃ more, c'.routes = c.routes ++ more := by
  intro ms
  induction ms with
  | nil =>
    intro c c' hgo hinv
    simp only [addRouteGo] at hgo
    obtain rfl : c = c' := Option.some.inj hgo
    exact ⟨hinv, rfl, rfl, ⟨[], by simp⟩⟩
  | cons m rest ih =>
    intro c c' hgo hinv
    simp only [addRouteGo] at hgo
    by_cases hk : (alookup c.routes ⟨path, m⟩).isSome
    · simp [hk] at hgo
    · simp only [hk, Bool.false_eq_true, if_false] at hgo
      cases hnew : Route.new path [m] h with
      | none => rw [hnew] at hgo; cases hgo
      | some r =>
        rw [hnew] at hgo
        have hnone : alookup c.routes ⟨path, m⟩ = none := by
          cases e : alookup c.routes ⟨path, m⟩ with
          | none => rfl
          | some v => rw [e] at hk; simp at hk
        have hnotmem : (⟨path, m⟩ : RouteDef) ∉ c.routes.map Prod.fst :=
          not_mem_keys_of_alookup_eq_none hnone
        have hinv2 : CanteenInv { c with routes := c.routes ++ [(⟨path, m⟩, r)] } := by
          constructor
          · show ((c.routes ++ [((⟨path, m⟩ : RouteDef), r)]).map Prod.fst).Nodup
            rw [List.map_append, List.nodup_append]
            refine ⟨hinv.1, List.nodup_singleton _, ?_⟩
            intro a ha hb
            simp only [List.map_cons, List.map_nil, List.mem_singleton] at hb
            rw [hb] at ha
            exact hnotmem ha
          · intro k rd hc
            obtain ⟨route, hscan, hlook⟩ := hinv.2 k rd hc
            exact ⟨route, scanFirst_append_of_some _ hscan,
              alookup_append_of_some _ hlook⟩
        obtain ⟨hinv', hrc, hdf, more, hroutes⟩ := ih _ _ hgo hinv2
        refine ⟨hinv', hrc, hdf, (⟨path, m⟩, r) :: more, ?_⟩
        rw [hroutes]
        simp

theorem add_route_spec {c c' : Canteen} {path : String} {mlist : List Method}
    {h : Handler} (hadd : Canteen.add_route c path mlist h = some c')
    (hinv : CanteenInv c) :
    CanteenInv c' ∧ c'.rcache = c.rcache ∧ c'.dfl = c.dfl ∧
      ∃ more, c'.routes = c.routes ++ more :=
  addRouteGo_spec path h (dedupMethods mlist) c c' hadd hinv

theorem handleResolve_spec {c c' : Canteen} {p : String} {m : Method}
    {hd : Handler} {pa : Option Params}
    (hh : handleResolve c p m = some (c', hd, pa)) (hinv : CanteenInv c) :
    CanteenInv c' ∧ c'.routes = c.routes ∧ c'.dfl = c.dfl := by
  simp only [handleResolve] at hh
  cases e : alookup c.rcache ⟨p, m⟩ with
  | some rd =>
    rw [e] at hh
    simp only [] at hh
    cases e2 : alookup c.routes rd with
    | none =>
      rw [e2] at hh
      simp only [] at hh
      exact Option.noConfusion hh
    | some route =>
      rw [e2] at hh
      simp only [] at hh
      cases hh
      exact ⟨hinv, rfl, rfl⟩
  | none =>
    rw [e] at hh
    simp only [] at hh
    cases e3 : scanFirst c.routes p m with
    | some pr =>
      obtain ⟨rd, route⟩ := pr
      rw [e3] at hh
      simp only [] at hh
      cases hh
      refine ⟨⟨hinv.1, ?_⟩, rfl, rfl⟩
      intro k rd0 hc
      by_cases hke : alookup c.rcache k = none
      · rw [alookup_append_of_none _ hke] at hc
        simp only [alookup] at hc
        by_cases hkres : k = (⟨p, m⟩ : RouteDef)
        · simp only [hkres, if_pos rfl] at hc
          cases hc
          have hmem : (rd, route) ∈ c.routes := List.mem_of_find?_eq_some e3
          refine ⟨route, ?_, alookup_of_mem_nodup hinv.1 hmem⟩
          rw [hkres]
          exact e3
        · simp [hkres] at hc
      · cases e4 : alookup c.rcache k with
        | none => exact absurd e4 hke
        | some rd1 =>
          rw [alookup_append_of_some _ e4] at hc
          have hx := Option.some.inj hc
          subst hx
          exact hinv.2 k _ e4
    | none =>
      rw [e3] at hh
      simp only [] at hh
      cases hh
      exact ⟨hinv, rfl, rfl⟩

theorem reach_inv {c : Canteen} (hre : Reach c) : CanteenInv c := by
  induction hre with
  | init =>
    refine ⟨List.nodup_nil, ?_⟩
    intro k rd hc
    simp [Canteen.new, alookup] at hc
  | add path mlist h _ hadd ih => exact (add_route_spec hadd ih).1
  | req path m _ hh ih => exact (handleResolve_spec hh ih).1
  | setdef h _ ih => exact ih

theorem reachnd_reach {c : Canteen} (hre : ReachND c) : Reach c := by
  induction hre with
  | init => exact Reach.init
  | add path mlist h _ hadd ih => exact Reach.add path mlist h ih hadd
  | req path m _ hh ih => exact Reach.req path m ih hh

theorem reachnd_dfl {c : Canteen} (hre : ReachND c) : c.dfl = utils_err_404 := by
  induction hre with
  | init => rfl
  | add path mlist h hr hadd ih =>
    rw [(add_route_spec hadd (reach_inv (reachnd_reach hr))).2.2.1, ih]
  | req path m hr hh ih =>
    rw [(handleResolve_spec hh (reach_inv (reachnd_reach hr))).2.2, ih]

/-! ## Claims about the route table -/

/-- A throwaway handler used in concrete examples and witnesses. -/
def hNop : Handler := fun _ => Response.err_404 ""

/-- A second handler, distinguishable in intent from `hNop`. -/
def hNop2 : Handler := fun _ => Response.err_404 "x"

/-- Witness state: one registered route `GET /a`. -/
def wc1 : Canteen := (Canteen.new.add_route "/a" [Method.Get] hNop).getD Canteen.new

/-- Witness state: `wc1` after resolving `GET /a` once, so the
resolution cache holds an entry. -/
def wc2 : Canteen :=
  ((handleResolve wc1 "/a" Method.Get).map (fun q => q.1)).getD Canteen.new

theorem reach_wc1 : Reach wc1 :=
  Reach.add "/a" [Method.Get] hNop Reach.init rfl

theorem reach_wc2 : Reach wc2 :=
  @Reach.req wc1 wc2 hNop (some []) "/a" Method.Get reach_wc1 rfl

/-- C1: for every reachable route table and every (path, method) pair
with a cache entry, the cached `RouteDef` designates exactly the route
the from-scratch first-match linear scan selects, it is registered, and
cached resolution returns the same handler and the same extracted
parameters as the from-scratch scan. -/
theorem route_cache_agrees_with_scan (c : Canteen) (p : String) (m : Method)
    (rd : RouteDef) (hre : Reach c)
    (hc : alookup c.rcache ⟨p, m⟩ = some rd) :
    ∃ route, alookup c.routes rd = some route ∧
      scanFirst c.routes p m = some (rd, route) ∧
      handleResolve c p m = some (c, route.handler, route.parse p) ∧
      scanResolve c p m = (route.handler, route.parse p) := by
  obtain ⟨hri, hci⟩ := reach_inv hre
  obtain ⟨route, hscan0, hlook⟩ := hci ⟨p, m⟩ rd hc
  have hscan : scanFirst c.routes p m = some (rd, route) := hscan0
  refine ⟨route, hlook, hscan, ?_, ?_⟩
  · simp only [handleResolve]
    rw [hc]
    simp only []
    rw [hlook]
  · simp only [scanResolve]
    rw [hscan]

/-- C1 witness: instantiated at the reachable state `wc2`, whose cache
holds the entry for `GET /a`. -/
theorem route_cache_agrees_with_scan_witness :
    ∃ route, alookup wc2.routes ⟨"/a", Method.Get⟩ = some route ∧
      scanFirst wc2.routes "/a" Method.Get = some (⟨"/a", Method.Get⟩, route) ∧
      handleResolve wc2 "/a" Method.Get = some (wc2, route.handler, route.parse "/a") ∧
      scanResolve wc2 "/a" Method.Get = (route.handler, route.parse "/a") :=
  route_cache_agrees_with_scan wc2 "/a" Method.Get ⟨"/a", Method.Get⟩ reach_wc2 rfl

/-- C2: route resolution is deterministic for a fixed registration
order: resolving the same path and method twice in a row (the second
time possibly through the cache entry the first resolution created)
yields the same handler and the same extracted parameters. -/
theorem route_resolution_deterministic (c c1 c2 : Canteen) (p : String)
    (m : Method) (hd1 hd2 : Handler) (pa1 pa2 : Option Params) (hre : Reach c)
    (h1 : handleResolve c p m = some (c1, hd1, pa1))
    (h2 : handleResolve c1 p m = some (c2, hd2, pa2)) :
    hd2 = hd1 ∧ pa2 = pa1 := by
  obtain ⟨hri, hci⟩ := reach_inv hre
  simp only [handleResolve] at h1 h2
  cases e : alookup c.rcache ⟨p, m⟩ with
  | some rd =>
    rw [e] at h1
    simp only [] at h1
    cases e2 : alookup c.routes rd with
    | none =>
      rw [e2] at h1
      simp only [] at h1
      exact Option.noConfusion h1
    | some route =>
      rw [e2] at h1
      simp only [] at h1
      cases h1
      rw [e] at h2
      simp only [] at h2
      rw [e2] at h2
      simp only [] at h2
      cases h2
      exact ⟨rfl, rfl⟩
  | none =>
    rw [e] at h1
    simp only [] at h1
    cases e3 : scanFirst c.routes p m with
    | some pr =>
      obtain ⟨rd, route⟩ := pr
      rw [e3] at h1
      simp only [] at h1
      cases h1
      have hl : alookup (c.rcache ++ [((⟨p, m⟩ : RouteDef), rd)]) ⟨p, m⟩ = some rd := by
        rw [alookup_append_of_none _ e]
        simp [alookup]
      have hlook : alookup c.routes rd = some route :=
        alookup_of_mem_nodup hri (List.mem_of_find?_eq_some e3)
      simp only [] at h2
      rw [hl] at h2
      simp only [] at h2
      rw [hlook] at h2
      simp only [] at h2
      cases h2
      exact ⟨rfl, rfl⟩
    | none =>
      rw [e3] at h1
      simp only [] at h1
      cases h1
      rw [e] at h2
      simp only [] at h2
      rw [e3] at h2
      simp only [] at h2
      cases h2
      exact ⟨rfl, rfl⟩

/-- C2 witness: two successive resolutions of `GET /a` from the
reachable state `wc1` (the second hitting the cache) select the same
handler and parameters. -/
theorem route_resolution_deterministic_witness :
    hNop = hNop ∧ (some [] : Option Params) = some [] :=
  route_resolution_deterministic wc1 wc2 wc2 "/a" Method.Get hNop hNop
    (some []) (some []) reach_wc1 rfl rfl

/-- C7: in every reachable route-table state, every resolution-cache
entry maps to a `RouteDef` key that is present in the route registry,
so the registry lookup on a cache hit cannot fail. -/
theorem rcache_targets_registered (c : Canteen) (hre : Reach c) :
    ∀ k rd, alookup c.rcache k = some rd → (alookup c.routes rd).isSome := by
  intro k rd hc
  obtain ⟨route, _, hlook⟩ := (reach_inv hre).2 k rd hc
  rw [hlook]
  rfl

/-- C7 witness: instantiated at the reachable state `wc2` and its
concrete cache entry. -/
theorem rcache_targets_registered_witness :
    (alookup wc2.routes ⟨"/a", Method.Get⟩).isSome :=
  rcache_targets_registered wc2 reach_wc2 ⟨"/a", Method.Get⟩ ⟨"/a", Method.Get⟩ rfl

/-- C10: every state reachable from `Canteen::new` without a
`set_default` call still has the built-in 404 handler as its default,
and a request matching no registered route resolves to that handler
(with no parameters) rather than failing. -/
theorem fresh_canteen_defaults_to_404 (c : Canteen) (p : String) (m : Method)
    (hre : ReachND c)
    (hnm : ∀ pr ∈ c.routes, pr.2.is_match (mkReq p m) = false) :
    c.dfl = utils_err_404 ∧
      handleResolve c p m = some (c, utils_err_404, none) := by
  have hdfl := reachnd_dfl hre
  refine ⟨hdfl, ?_⟩
  have hinv := reach_inv (reachnd_reach hre)
  have hscan : scanFirst c.routes p m = none := by
    unfold scanFirst
    apply List.find?_eq_none.mpr
    intro x hx
    simp [hnm x hx]
  have hcache : alookup c.rcache ⟨p, m⟩ = none := by
    cases e : alookup c.rcache ⟨p, m⟩ with
    | none => rfl
    | some rd =>
      obtain ⟨route, hsc0, _⟩ := hinv.2 ⟨p, m⟩ rd e
      have hsc : scanFirst c.routes p m = some (rd, route) := hsc0
      rw [hscan] at hsc
      exact Option.noConfusion hsc
  simp only [handleResolve]
  rw [hcache]
  simp only []
  rw [hscan]
  simp only []
  rw [hdfl]

/-- C10 witness: from the reachable state `wc1` (one route `GET /a`,
default never changed), the unmatched request `GET /nope` resolves to
the built-in 404 handler. -/
theorem fresh_canteen_defaults_to_404_witness :
    wc1.dfl = utils_err_404 ∧
      handleResolve wc1 "/nope" Method.Get = some (wc1, utils_err_404, none) := by
  refine fresh_canteen_defaults_to_404 wc1 "/nope" Method.Get
    (ReachND.add "/a" [Method.Get] hNop ReachND.init rfl) ?_
  intro pr hpr
  have he : wc1.routes = [(⟨"/a", Method.Get⟩, (Route.new "/a" [Method.Get] hNop).getD
      ⟨Regex.eps, [], [], hNop⟩)] := rfl
  rw [he] at hpr
  rw [List.mem_singleton.mp hpr]
  rfl

/-! ## Claims about parameter extraction, registration, writes and
static files -/

/-- The compiled route for the template `/item/<int:id>` used by the
C3 example. -/
def itemRoute : Route :=
  (Route.new "/item/<int:id>" [Method.Get] hNop).getD ⟨Regex.eps, [], [], hNop⟩

/-- Equation form of `Route::new`. -/
theorem route_new_eq (path : String) (ml : List Method) (hd : Handler) :
    Route.new path ml hd = (Regex.parseChars (buildPattern path)).map
      (fun re => ⟨re, dedupMethods ml, routeParams path, hd⟩) := by
  unfold Route.new
  cases Regex.parseChars (buildPattern path) <;> rfl

/-- C3: `Route::parse` returns `None` exactly when the path does not
match the compiled pattern; otherwise it returns a mapping whose
domain is the declared parameter names, each mapped to the substring
captured by the group of that name; in particular the compiled route
for `/item/<int:id>` parses `/item/42` to the mapping `id = 42` and
rejects `/item/abc`. -/
theorem route_parse_spec :
    (∀ (r : Route) (p : String),
      r.parse p = none ↔ r.matcher.isMatchOn p.data = false)
    ∧ (∀ (r : Route) (p : String) (ps : Params), r.parse p = some ps →
      ps.map Prod.fst = r.params.map Prod.fst ∧
      ∃ caps, r.matcher.capturesOn p.data = some caps ∧
        ps = r.params.map (fun q => (q.1, (capsGet caps q.1).getD "")))
    ∧ (∀ r : Route, Route.new "/item/<int:id>" [Method.Get] hNop = some r →
      r.parse "/item/42" = some [("id", "42")] ∧ r.parse "/item/abc" = none) := by
  refine ⟨?_, ?_, ?_⟩
  · intro r p
    unfold Route.parse Regex.isMatchOn
    cases e : r.matcher.capturesOn p.data <;> simp [e]
  · intro r p ps h
    unfold Route.parse at h
    cases e : r.matcher.capturesOn p.data with
    | none => rw [e] at h; exact Option.noConfusion h
    | some caps =>
      rw [e] at h
      simp only [] at h
      have hps := Option.some.inj h
      subst hps
      exact ⟨by simp, caps, rfl, rfl⟩
  · intro r h
    have e : Route.new "/item/<int:id>" [Method.Get] hNop = some itemRoute := rfl
    rw [e] at h
    obtain rfl : itemRoute = r := Option.some.inj h
    exact ⟨rfl, rfl⟩

/-- C3 witness: the concrete computations for `/item/<int:id>`. -/
theorem route_parse_spec_witness :
    itemRoute.parse "/item/42" = some [("id", "42")] ∧
      itemRoute.parse "/item/abc" = none :=
  route_parse_spec.2.2 itemRoute rfl

theorem dedup_singleton (m : Method) : dedupMethods [m] = [m] := rfl

/-- C4: registering a route whose (path template, method) pair is
already registered panics, while registering the same template under
two different methods stores two independent routes, each of which can
only match a request carrying its own method. -/
theorem add_route_duplicate_fatal_distinct_methods :
    (∀ (c : Canteen) (path : String) (m : Method) (h : Handler),
      (alookup c.routes ⟨path, m⟩).isSome = true →
      Canteen.add_route c path [m] h = none)
    ∧ (∀ (path : String) (m1 m2 : Method) (h1 h2 : Handler) (c1 c2 : Canteen),
      m1 ≠ m2 →
      Canteen.new.add_route path [m1] h1 = some c1 →
      c1.add_route path [m2] h2 = some c2 →
      ∃ r1 r2, alookup c2.routes ⟨path, m1⟩ = some r1 ∧
        alookup c2.routes ⟨path, m2⟩ = some r2 ∧
        r1.handler = h1 ∧ r2.handler = h2 ∧
        (∀ req : Request, r1.is_match req = true → req.method = m1) ∧
        (∀ req : Request, r2.is_match req = true → req.method = m2)) := by
  constructor
  · intro c path m h hdup
    unfold Canteen.add_route
    rw [dedup_singleton]
    simp only [addRouteGo, hdup, if_true]
  · intro path m1 m2 h1 h2 c1 c2 hne hadd1 hadd2
    unfold Canteen.add_route at hadd1 hadd2
    rw [dedup_singleton] at hadd1 hadd2
    simp only [addRouteGo, alookup, Option.isSome_none, Bool.false_eq_true,
      if_false, Canteen.new] at hadd1
    cases e1 : Route.new path [m1] h1 with
    | none =>
      rw [e1] at hadd1
      simp only [] at hadd1
      exact Option.noConfusion hadd1
    | some r1 =>
      rw [e1] at hadd1
      simp only [] at hadd1
      obtain rfl := Option.some.inj hadd1
      have hne2 : (⟨path, m2⟩ : RouteDef) ≠ ⟨path, m1⟩ := by
        intro hx
        have := (RouteDef.mk.injEq path m2 path m1).mp hx
        exact hne this.2.symm
      simp only [addRouteGo, alookup, List.nil_append, hne2, if_false,
        Option.isSome_none, Bool.false_eq_true] at hadd2
      rw [route_new_eq] at e1
      obtain ⟨re, hre, hr1⟩ := Option.map_eq_some'.mp e1
      have e2 : Route.new path [m2] h2 =
          some ⟨re, dedupMethods [m2], routeParams path, h2⟩ := by
        rw [route_new_eq, hre]
        rfl
      rw [e2] at hadd2
      simp only [] at hadd2
      obtain rfl := Option.some.inj hadd2
      refine ⟨r1, ⟨re, dedupMethods [m2], routeParams path, h2⟩, ?_, ?_, ?_, rfl, ?_, ?_⟩
      · simp [alookup]
      · simp [alookup, hne2]
      · rw [← hr1]
      · intro req hm
        rw [← hr1] at hm
        simp only [Route.is_match, Bool.and_eq_true, dedup_singleton] at hm
        have := hm.2
        simpa [List.contains] using this
      · intro req hm
        simp only [Route.is_match, Bool.and_eq_true, dedup_singleton] at hm
        have := hm.2
        simpa [List.contains] using this

/-- Witness state for C4: `wc1` extended with `POST /a`. -/
def wcB : Canteen := (wc1.add_route "/a" [Method.Post] hNop2).getD Canteen.new

/-- C4 witness: concrete duplicate rejection and same-template
two-method registration. -/
theorem add_route_duplicate_fatal_distinct_methods_witness :
    (∃ r1 r2, alookup wcB.routes ⟨"/a", Method.Get⟩ = some r1 ∧
      alookup wcB.routes ⟨"/a", Method.Post⟩ = some r2 ∧
      r1.handler = hNop ∧ r2.handler = hNop2 ∧
      (∀ req : Request, r1.is_match req = true → req.method = Method.Get) ∧
      (∀ req : Request, r2.is_match req = true → req.method = Method.Post)) ∧
    wc1.add_route "/a" [Method.Get] hNop = none :=
  ⟨add_route_duplicate_fatal_distinct_methods.2 "/a" Method.Get Method.Post
      hNop hNop2 wc1 wcB (by decide) rfl rfl,
    add_route_duplicate_fatal_distinct_methods.1 wc1 "/a" Method.Get hNop rfl⟩

/-- C5 (documents a divergence between spec and code): a partial write
`Ok(1)` leaves exactly the suffix `[2, 3]` in the buffer (first
conjunct), but when the next write attempt yields `WouldBlock`,
`Client::send` returns `Ok(true)` — "the caller may close" — and the
writable arm of `ready()` then resets the connection, so the retained
remainder `[2, 3]` is discarded rather than resumed on the next
writable event.  The third conjunct shows the loss-free behaviour when
no error intervenes: the full buffer is transferred with no bytes
duplicated or lost. -/
theorem client_send_wouldblock_drops_remainder :
    clientSend [1, 2, 3] [WriteStep.wrote 1, WriteStep.wouldBlock] =
      some ⟨true, [2, 3], [1]⟩ ∧
    writableEvent [1, 2, 3] [WriteStep.wrote 1, WriteStep.wouldBlock] =
      some (true, [2, 3], [1]) ∧
    clientSend [1, 2, 3] [WriteStep.wrote 1, WriteStep.wrote 2] =
      some ⟨true, [], [1, 2, 3]⟩ :=
  ⟨rfl, rfl, rfl⟩

theorem foldl_pushChunk (l : List (List Char)) :
    ∀ acc, l.foldl pushChunk acc = acc ++ l.filter (fun c => !badChunk c) := by
  induction l with
  | nil => intro acc; simp
  | cons c t ih =>
    intro acc
    simp only [List.foldl_cons, pushChunk]
    by_cases hb : badChunk c = true
    · simp only [hb, if_true, List.filter_cons, Bool.not_true]
      rw [ih]
      simp
    · simp only [hb, if_false, List.filter_cons]
      rw [ih]
      simp only [Bool.not_eq_true] at hb
      simp [hb]

/-- C8: the file path the static-file handler constructs is the
working directory followed by exactly those segments of the cleaned
request path that are not empty, `.` or `..`; hence no such segment
ever reaches the opened path, and `GET /static/../secret` resolves
below the working directory with the `..` stripped. -/
theorem static_file_path_strips_dot_segments :
    ∀ (cwd : List (List Char)) (path : String),
      static_file_fpath cwd path =
        cwd ++ (splitChar '/' (replace_escape path.data)).filter
          (fun c => !badChunk c) ∧
      (∀ seg ∈ (static_file_fpath cwd path).drop cwd.length,
        seg ≠ [] ∧ seg ≠ ['.'] ∧ seg ≠ ['.', '.']) ∧
      static_file_fpath cwd "/static/../secret" =
        cwd ++ ["static".data, "secret".data] := by
  intro cwd path
  have h1 : static_file_fpath cwd path =
      cwd ++ (splitChar '/' (replace_escape path.data)).filter
        (fun c => !badChunk c) := by
    unfold static_file_fpath
    exact foldl_pushChunk _ cwd
  refine ⟨h1, ?_, ?_⟩
  · intro seg hseg
    rw [h1, List.drop_left] at hseg
    have hf := List.of_mem_filter hseg
    simp only [Bool.not_eq_true'] at hf
    simp only [badChunk, Bool.or_eq_false_iff, decide_eq_false_iff_not] at hf
    exact ⟨hf.1.1, hf.1.2, hf.2⟩
  · unfold static_file_fpath
    rw [foldl_pushChunk]
    congr 1

/-! ## Compilation success and failure, claims C6 and C9

The pattern `Route::new` assembles is `^` plus one chunk per segment
plus `/?$`.  Segments that are not placeholders are pasted into the
pattern uninterpreted, so their characters are read as regex syntax:
an unbalanced parameter brace is plain literal text (and compiles),
while characters such as `(` can make the pattern invalid.  Duplicate
parameter names yield two identically named capture groups, which the
regex compiler rejects.  The lemmas below walk the parser state
machine through the assembled pattern. -/

/-- Characters that a literal segment may contain while certainly
remaining valid regex text: alphanumerics, `-`, `_` and `.`. -/
def safeLitChar (c : Char) : Bool :=
  c.isAlphanum || c = '-' || c = '_' || c = '.'

/-- Every non-placeholder segment of the template consists of safe
literal characters. -/
def SafeParts (path : String) : Prop :=
  ∀ part ∈ routeParts path, parsePlaceholder part = none →
    ∀ c ∈ part, safeLitChar c = true

theorem foldl_pstep_none (l : List Char) : l.foldl pstep none = none := by
  induction l with
  | nil => rfl
  | cons c t ih => simpa [pstep] using ih

theorem pstepChar_safeLit (stk : List (GKind × PFrame)) (cur : PFrame)
    (names : List String) (c : Char) (h : safeLitChar c = true) :
    pstepChar ⟨stk, cur, names, PMode.normal⟩ c =
      some ⟨stk, cur.push (if c = '.' then Regex.any else Regex.lit c),
        names, PMode.normal⟩ := by
  have h1 : c ≠ '(' := fun e => absurd (e ▸ h) (by decide)
  have h2 : c ≠ ')' := fun e => absurd (e ▸ h) (by decide)
  have h3 : c ≠ '|' := fun e => absurd (e ▸ h) (by decide)
  have h4 : c ≠ '*' := fun e => absurd (e ▸ h) (by decide)
  have h5 : c ≠ '+' := fun e => absurd (e ▸ h) (by decide)
  have h6 : c ≠ '?' := fun e => absurd (e ▸ h) (by decide)
  have h7 : c ≠ '[' := fun e => absurd (e ▸ h) (by decide)
  have h8 : c ≠ '\\' := fun e => absurd (e ▸ h) (by decide)
  have h9 : c ≠ '^' := fun e => absurd (e ▸ h) (by decide)
  have h10 : c ≠ '$' := fun e => absurd (e ▸ h) (by decide)
  by_cases hdot : c = '.'
  · subst hdot
    rfl
  · simp only [pstepChar, stepNormal, h1, h2, h3, h4, h5, h6, h7, h8, h9, h10,
      hdot, if_false]

theorem run_safeLit (part : List Char) (h : ∀ c ∈ part, safeLitChar c = true) :
    ∀ (stk : List (GKind × PFrame)) (cur : PFrame) (names : List String),
      ∃ cur2, part.foldl pstep (some ⟨stk, cur, names, PMode.normal⟩) =
        some ⟨stk, cur2, names, PMode.normal⟩ := by
  induction part with
  | nil => intro stk cur names; exact ⟨cur, rfl⟩
  | cons c t ih =>
    intro stk cur names
    have hc : safeLitChar c = true := h c (List.mem_cons_self c t)
    have ht : ∀ d ∈ t, safeLitChar d = true := fun d hd => h d (List.mem_cons_of_mem c hd)
    obtain ⟨cur2, hrun⟩ := ih ht stk
      (cur.push (if c = '.' then Regex.any else Regex.lit c)) names
    refine ⟨cur2, ?_⟩
    rw [List.foldl_cons]
    show t.foldl pstep (pstepChar ⟨stk, cur, names, PMode.normal⟩ c) =
      some ⟨stk, cur2, names, PMode.normal⟩
    rw [pstepChar_safeLit stk cur names c hc]
    exact hrun

theorem run_grpName (nm : List Char) (h : ∀ c ∈ nm, nameChar c = true) :
    ∀ (stk : List (GKind × PFrame)) (cur : PFrame) (names : List String)
      (acc : List Char),
      nm.foldl pstep (some ⟨stk, cur, names, PMode.grpName acc⟩) =
        some ⟨stk, cur, names, PMode.grpName (nm.reverse ++ acc)⟩ := by
  induction nm with
  | nil => intro stk cur names acc; rfl
  | cons c t ih =>
    intro stk cur names acc
    have hc : nameChar c = true := h c (List.mem_cons_self c t)
    have hgt : c ≠ '>' := fun e => absurd (e ▸ hc) (by decide)
    have ht : ∀ d ∈ t, nameChar d = true := fun d hd => h d (List.mem_cons_of_mem c hd)
    rw [List.foldl_cons]
    show t.foldl pstep (pstepChar ⟨stk, cur, names, PMode.grpName acc⟩ c) =
      some ⟨stk, cur, names, PMode.grpName ((c :: t).reverse ++ acc)⟩
    have hstep : pstepChar ⟨stk, cur, names, PMode.grpName acc⟩ c =
        some ⟨stk, cur, names, PMode.grpName (c :: acc)⟩ := by
      simp only [pstepChar, hgt, if_false, hc, if_true]
    rw [hstep, ih ht stk cur names (c :: acc)]
    simp

theorem run_msub (t : ParamType) (stk : List (GKind × PFrame)) (cur : PFrame)
    (names : List String) :
    ∃ cur2, (mstrOf t).foldl pstep (some ⟨stk, cur, names, PMode.normal⟩) =
      some ⟨stk, cur2, names, PMode.normal⟩ := by
  cases t <;> exact ⟨_, rfl⟩

theorem run_grpOpen (stk : List (GKind × PFrame)) (cur : PFrame)
    (names : List String) :
    ("/(?P<".data).foldl pstep (some ⟨stk, cur, names, PMode.normal⟩) =
      some ⟨stk, cur.push (Regex.lit '/'), names, PMode.grpName []⟩ := rfl

theorem pstep_close_name (stk : List (GKind × PFrame)) (cur : PFrame)
    (names : List String) (acc : List Char) (hacc : acc ≠ [])
    (hfresh : String.mk acc.reverse ∉ names) :
    pstepChar ⟨stk, cur, names, PMode.grpName acc⟩ '>' =
      some ⟨(GKind.named (String.mk acc.reverse), cur) :: stk, PFrame.empty,
        String.mk acc.reverse :: names, PMode.normal⟩ := by
  simp only [pstepChar, if_pos rfl, hacc, if_false, hfresh, if_true]

theorem pstep_close_name_dup (stk : List (GKind × PFrame)) (cur : PFrame)
    (names : List String) (acc : List Char) (hacc : acc ≠ [])
    (hdup : String.mk acc.reverse ∈ names) :
    pstepChar ⟨stk, cur, names, PMode.grpName acc⟩ '>' = none := by
  simp only [pstepChar, if_pos rfl, hacc, if_false, hdup, if_true]

theorem validName_ne_nil {nm : List Char} (h : validName nm = true) : nm ≠ [] := by
  cases nm with
  | nil => simp [validName] at h
  | cons c t => simp

theorem validName_chars {nm : List Char} (h : validName nm = true) :
    ∀ c ∈ nm, nameChar c = true := by
  cases nm with
  | nil => simp
  | cons c t =>
    simp only [validName, Bool.and_eq_true, List.all_eq_true] at h
    intro d hd
    rcases List.mem_cons.mp hd with rfl | hdt
    · exact h.1
    · exact h.2 d hdt

theorem pstep_some (st : PState) (c : Char) : pstep (some st) c = pstepChar st c := rfl

theorem pstep_slash (stk : List (GKind × PFrame)) (cur : PFrame)
    (names : List String) :
    pstepChar ⟨stk, cur, names, PMode.normal⟩ '/' =
      some ⟨stk, cur.push (Regex.lit '/'), names, PMode.normal⟩ := rfl

theorem chunk_shape (t : ParamType) (nm : List Char) :
    "/(?P<".data ++ nm ++ '>' :: mstrOf t ++ [')'] =
      ("/(?P<".data ++ nm) ++ ('>' :: (mstrOf t ++ [')'])) := by
  simp

/-- Processing one placeholder chunk with a fresh name succeeds and
records the name. -/
theorem run_chunk_named (t : ParamType) (nm : List Char)
    (hv : validName nm = true) (stk : List (GKind × PFrame)) (cur : PFrame)
    (names : List String) (hfresh : String.mk nm ∉ names) :
    ∃ cur2, ("/(?P<".data ++ nm ++ '>' :: mstrOf t ++ [')']).foldl pstep
        (some ⟨stk, cur, names, PMode.normal⟩) =
      some ⟨stk, cur2, String.mk nm :: names, PMode.normal⟩ := by
  have hnc := validName_chars hv
  have hnn := validName_ne_nil hv
  obtain ⟨curM, hM⟩ := run_msub t
    ((GKind.named (String.mk nm), cur.push (Regex.lit '/')) :: stk)
    PFrame.empty (String.mk nm :: names)
  refine ⟨(cur.push (Regex.lit '/')).push
    (Regex.grp (some (String.mk nm)) (finFrame curM)), ?_⟩
  rw [chunk_shape, List.foldl_append, List.foldl_append, run_grpOpen,
    run_grpName nm hnc, List.append_nil, List.foldl_cons, pstep_some,
    pstep_close_name _ _ _ _ (by simpa using hnn)
      (by rw [List.reverse_reverse]; exact hfresh),
    List.reverse_reverse, List.foldl_append, hM]
  rfl

/-- Processing one placeholder chunk whose name was already declared
fails: the regex compiler rejects duplicate capture group names. -/
theorem run_chunk_named_dup (t : ParamType) (nm : List Char)
    (hv : validName nm = true) (stk : List (GKind × PFrame)) (cur : PFrame)
    (names : List String) (hdup : String.mk nm ∈ names) :
    ("/(?P<".data ++ nm ++ '>' :: mstrOf t ++ [')']).foldl pstep
        (some ⟨stk, cur, names, PMode.normal⟩) = none := by
  have hnc := validName_chars hv
  have hnn := validName_ne_nil hv
  rw [chunk_shape, List.foldl_append, List.foldl_append, run_grpOpen,
    run_grpName nm hnc, List.append_nil, List.foldl_cons, pstep_some,
    pstep_close_name_dup _ _ _ _ (by simpa using hnn)
      (by rw [List.reverse_reverse]; exact hdup)]
  exact foldl_pstep_none _

theorem partChunk_placeholder {part : List Char} {t : ParamType} {nm : List Char}
    (h : parsePlaceholder part = some (t, nm)) :
    partChunk part = "/(?P<".data ++ nm ++ '>' :: mstrOf t ++ [')'] := by
  unfold partChunk
  rw [h]

theorem partChunk_lit {part : List Char} (h : parsePlaceholder part = none) :
    partChunk part = '/' :: part := by
  unfold partChunk
  rw [h]

theorem phInner_validName {inner : List Char} {t : ParamType}
    {nm : List Char} (h : phInner inner = some (t, nm)) :
    validName nm = true := by
  unfold phInner at h
  cases htag : typeTag inner with
  | some p =>
    obtain ⟨t0, nm0⟩ := p
    rw [htag] at h
    simp only [] at h
    by_cases hv0 : validName nm0 = true
    · rw [if_pos hv0] at h
      cases h
      exact hv0
    · rw [if_neg hv0] at h
      by_cases hv1 : validName inner = true
      · rw [if_pos hv1] at h
        cases h
        exact hv1
      · rw [if_neg hv1] at h
        exact Option.noConfusion h
  | none =>
    rw [htag] at h
    simp only [] at h
    by_cases hv1 : validName inner = true
    · rw [if_pos hv1] at h
      cases h
      exact hv1
    · rw [if_neg hv1] at h
      exact Option.noConfusion h

theorem parsePlaceholder_validName {part : List Char} {t : ParamType}
    {nm : List Char} (h : parsePlaceholder part = some (t, nm)) :
    validName nm = true := by
  cases part with
  | nil => exact Option.noConfusion h
  | cons c rest =>
    rw [show parsePlaceholder (c :: rest) =
      (if c = '<' ∧ rest ≠ [] ∧ rest.getLast? = some '>' then
        phInner rest.dropLast else none) from rfl] at h
    by_cases hcond : c = '<' ∧ rest ≠ [] ∧ rest.getLast? = some '>'
    · rw [if_pos hcond] at h
      exact phInner_validName h
    · rw [if_neg hcond] at h
      exact Option.noConfusion h

/-- The placeholder names contributed by a segment list. -/
def namesOfParts (parts : List (List Char)) : List String :=
  parts.filterMap (fun part => (parsePlaceholder part).map (fun p => String.mk p.2))

theorem segNames_eq (path : String) :
    segNames path = namesOfParts (routeParts path) := rfl

/-- Processing the chunks of safe segments with pairwise fresh
placeholder names keeps the parser in a closed normal state. -/
theorem run_chunks : ∀ (parts : List (List Char))
    (stk : List (GKind × PFrame)) (cur : PFrame) (names : List String),
    (∀ part ∈ parts, parsePlaceholder part = none →
      ∀ c ∈ part, safeLitChar c = true) →
    (namesOfParts parts).Nodup →
    (∀ n ∈ namesOfParts parts, n ∉ names) →
    ∃ cur2 names2, (parts.flatMap partChunk).foldl pstep
        (some ⟨stk, cur, names, PMode.normal⟩) =
      some ⟨stk, cur2, names2, PMode.normal⟩ := by
  intro parts
  induction parts with
  | nil =>
    intro stk cur names _ _ _
    exact ⟨cur, names, rfl⟩
  | cons part rest ih =>
    intro stk cur names hsafe hnd hdisj
    have hsafe_rest : ∀ p ∈ rest, parsePlaceholder p = none →
        ∀ c ∈ p, safeLitChar c = true :=
      fun p hp => hsafe p (List.mem_cons_of_mem _ hp)
    rw [List.flatMap_cons, List.foldl_append]
    cases hp : parsePlaceholder part with
    | some pr =>
      obtain ⟨t, nm⟩ := pr
      have hv := parsePlaceholder_validName hp
      have hnames_cons : namesOfParts (part :: rest) =
          String.mk nm :: namesOfParts rest := by
        simp [namesOfParts, List.filterMap_cons, hp]
      rw [hnames_cons] at hnd hdisj
      have hfresh : String.mk nm ∉ names :=
        hdisj _ (List.mem_cons_self _ _)
      obtain ⟨cur2, hc⟩ := run_chunk_named t nm hv stk cur names hfresh
      rw [partChunk_placeholder hp, hc]
      have hnotin := (List.nodup_cons.mp hnd).1
      have hnd' := (List.nodup_cons.mp hnd).2
      have hdisj' : ∀ n ∈ namesOfParts rest, n ∉ String.mk nm :: names := by
        intro n hn
        simp only [List.mem_cons, not_or]
        exact ⟨fun e => hnotin (e ▸ hn), hdisj n (List.mem_cons_of_mem _ hn)⟩
      exact ih stk cur2 (String.mk nm :: names) hsafe_rest hnd' hdisj'
    | none =>
      rw [partChunk_lit hp, List.foldl_cons, pstep_some, pstep_slash]
      obtain ⟨cur1, hlit⟩ := run_safeLit part
        (hsafe part (List.mem_cons_self _ _) hp) stk (cur.push (Regex.lit '/')) names
      rw [hlit]
      have hnames_eq : namesOfParts (part :: rest) = namesOfParts rest := by
        simp [namesOfParts, List.filterMap_cons, hp]
      rw [hnames_eq] at hnd hdisj
      exact ih stk cur1 names hsafe_rest hnd hdisj

/-- Processing the chunks of safe segments fails when a placeholder
name is repeated (or already declared): the parser rejects the second
`(?P<name>` group. -/
theorem run_chunks_dup : ∀ (parts : List (List Char))
    (stk : List (GKind × PFrame)) (cur : PFrame) (names : List String),
    (∀ part ∈ parts, parsePlaceholder part = none →
      ∀ c ∈ part, safeLitChar c = true) →
    ¬ ((namesOfParts parts).Nodup ∧ ∀ n ∈ namesOfParts parts, n ∉ names) →
    (parts.flatMap partChunk).foldl pstep
      (some ⟨stk, cur, names, PMode.normal⟩) = none := by
  intro parts
  induction parts with
  | nil =>
    intro stk cur names _ hdup
    exact absurd ⟨by simp [namesOfParts], by simp [namesOfParts]⟩ hdup
  | cons part rest ih =>
    intro stk cur names hsafe hdup
    have hsafe_rest : ∀ p ∈ rest, parsePlaceholder p = none →
        ∀ c ∈ p, safeLitChar c = true :=
      fun p hp => hsafe p (List.mem_cons_of_mem _ hp)
    rw [List.flatMap_cons, List.foldl_append]
    cases hp : parsePlaceholder part with
    | some pr =>
      obtain ⟨t, nm⟩ := pr
      have hv := parsePlaceholder_validName hp
      have hnames_cons : namesOfParts (part :: rest) =
          String.mk nm :: namesOfParts rest := by
        simp [namesOfParts, List.filterMap_cons, hp]
      rw [hnames_cons] at hdup
      by_cases hin : String.mk nm ∈ names
      · rw [partChunk_placeholder hp, run_chunk_named_dup t nm hv stk cur names hin]
        exact foldl_pstep_none _
      · obtain ⟨cur2, hc⟩ := run_chunk_named t nm hv stk cur names hin
        rw [partChunk_placeholder hp, hc]
        apply ih stk cur2 (String.mk nm :: names) hsafe_rest
        intro hok
        apply hdup
        constructor
        · refine List.nodup_cons.mpr ⟨?_, hok.1⟩
          intro hmem
          exact (hok.2 _ hmem) (List.mem_cons_self _ _)
        · intro n hn
          rcases List.mem_cons.mp hn with rfl | hn2
          · exact hin
          · intro hmem
            exact (hok.2 n hn2) (List.mem_cons_of_mem _ hmem)
    | none =>
      rw [partChunk_lit hp, List.foldl_cons, pstep_some, pstep_slash]
      obtain ⟨cur1, hlit⟩ := run_safeLit part
        (hsafe part (List.mem_cons_self _ _) hp) stk (cur.push (Regex.lit '/')) names
      rw [hlit]
      have hnames_eq : namesOfParts (part :: rest) = namesOfParts rest := by
        simp [namesOfParts, List.filterMap_cons, hp]
      rw [hnames_eq] at hdup
      exact ih stk cur1 names hsafe_rest hdup

/-- C6 amended, positive half: every template whose placeholder names
are pairwise distinct and whose literal segments consist of safe
characters compiles successfully — whether or not its placeholder
braces are balanced, since a segment that is not placeholder syntax is
literal text made of safe characters. -/
theorem route_new_succeeds_on_safe_templates (path : String)
    (ml : List Method) (hd : Handler) (hsafe : SafeParts path)
    (hnodup : (segNames path).Nodup) :
    (Route.new path ml hd).isSome = true := by
  rw [route_new_eq]
  obtain ⟨cur2, names2, hrun⟩ := run_chunks (routeParts path) []
    (PFrame.empty.push Regex.bol) [] hsafe
    (show (namesOfParts (routeParts path)).Nodup from hnodup)
    (by simp)
  unfold Regex.parseChars runP
  have hshape : buildPattern path =
      ('^' :: (routeParts path).flatMap partChunk) ++ "/?$".data := rfl
  have hhead : List.foldl pstep (some PState.init)
      ('^' :: (routeParts path).flatMap partChunk) =
    List.foldl pstep
      (some ⟨[], PFrame.empty.push Regex.bol, [], PMode.normal⟩)
      ((routeParts path).flatMap partChunk) := rfl
  rw [hshape, List.foldl_append, hhead, hrun]
  rfl

/-- C9 amended: a template with safe segments in which the same
parameter name occurs in more than one placeholder segment does not
compile — the assembled pattern has duplicate named capture groups and
`Regex::new(..).unwrap()` panics — so no capture overwriting can take
place. -/
theorem route_new_dup_param_fails (path : String) (ml : List Method)
    (hd : Handler) (hsafe : SafeParts path)
    (hdup : ¬ (segNames path).Nodup) :
    Route.new path ml hd = none := by
  rw [route_new_eq]
  have hnone : List.foldl pstep
      (some ⟨[], PFrame.empty.push Regex.bol, [], PMode.normal⟩)
      ((routeParts path).flatMap partChunk) = none := by
    apply run_chunks_dup (routeParts path) [] (PFrame.empty.push Regex.bol) [] hsafe
    intro hok
    exact hdup hok.1
  unfold Regex.parseChars runP
  have hshape : buildPattern path =
      ('^' :: (routeParts path).flatMap partChunk) ++ "/?$".data := rfl
  have hhead : List.foldl pstep (some PState.init)
      ('^' :: (routeParts path).flatMap partChunk) =
    List.foldl pstep
      (some ⟨[], PFrame.empty.push Regex.bol, [], PMode.normal⟩)
      ((routeParts path).flatMap partChunk) := rfl
  rw [hshape, List.foldl_append, hhead, hnone, foldl_pstep_none]
  rfl

/-- C6 counterexample: the claim "compilation fails iff the template
has unbalanced parameter braces" is false in both directions — the
unbalanced-brace template `/<int:id` compiles (the segment is treated
as literal text), while the brace-free template `/(` panics (the
pasted `(` makes the assembled regex invalid). -/
theorem compile_unbalanced_brace_counterexample :
    (Route.new "/<int:id" [Method.Get] hNop).isSome = true ∧
    (Route.new "/(" [Method.Get] hNop).isSome = false := ⟨rfl, rfl⟩

/-- C6 witness: the safe template `/double/<int:n>` compiles. -/
theorem route_new_succeeds_on_safe_templates_witness :
    (Route.new "/double/<int:n>" [Method.Get] hNop).isSome = true :=
  route_new_succeeds_on_safe_templates "/double/<int:n>" [Method.Get] hNop
    (by unfold SafeParts; decide) (by decide)

/-- C9 counterexample: the claim "duplicate parameter names compile
and the later capture overwrites" is false — compiling
`/x/<int:a>/<str:a>` panics (`Regex::new` rejects the duplicate
capture group name `a`). -/
theorem compile_duplicate_param_counterexample :
    Route.new "/x/<int:a>/<str:a>" [Method.Get] hNop = none := rfl

/-- C9 witness: the amended claim applied to the concrete duplicate
template `/y/<int:b>/<float:b>`. -/
theorem route_new_dup_param_fails_witness :
    Route.new "/y/<int:b>/<float:b>" [Method.Get] hNop = none :=
  route_new_dup_param_fails "/y/<int:b>/<float:b>" [Method.Get] hNop
    (by unfold SafeParts; decide) (by decide)
